import Mathlib

/-!
# serge: the static file server of `server.go`

A shallow embedding of `server.go` (package `serge`) and of the pieces of the Go
standard library it calls (`path.Clean`, `filepath.Join`, `filepath.Base`,
`strings.HasPrefix`, `strings.HasSuffix`, `os.IsNotExist`, `os.IsPermission`),
followed by the properties of the handler.

Conventions of the embedding.

* A Go `string` is a sequence of bytes; it is modelled as a `List Char`, one
  character per byte.  The library functions used here only ever compare bytes
  with `'/'` and `'.'`.
* `path/filepath` is modelled for Unix targets: the separator is `'/'`, there is no
  volume name and `filepath.FromSlash` is the identity.
* Effects (opening and closing files, writing headers and status codes, logging,
  calling the content-writing primitive `http.ServeContent`) are recorded, in
  program order, in a list of `Event`s.
* `negotiateContentEncoding`, `newResponseWriterEncoder` and the `encoding*`
  constants live in other files of the package; the handler takes them as the
  parameter `Deps`.
-/

/-- A Go string: a sequence of bytes. -/
abbrev GoString := List Char

/-! ## Go standard library -/

namespace strings

/-- Go `strings.HasPrefix`: `len(s) >= len(p) && s[:len(p)] == p`. -/
def HasPrefix (s p : GoString) : Bool := p.length ≤ s.length && s.take p.length == p

/-- Go `strings.HasSuffix`: `len(s) >= len(x) && s[len(s)-len(x):] == x`. -/
def HasSuffix (s x : GoString) : Bool :=
  x.length ≤ s.length && s.drop (s.length - x.length) == x

/-- Go `strings.Join`. -/
def Join : List GoString → GoString → GoString
  | [], _ => []
  | [a], _ => a
  | a :: b :: rest, sep => a ++ sep ++ Join (b :: rest) sep

end strings

namespace path

/-- The `..` case of `Clean` when it can backtrack:
`out.w--; for out.w > dotdot && out.index(out.w) != '/' { out.w-- }`.
The buffer is held most recent byte first, so `out.w` is its length and
`out.index(out.w)`, read just after `out.w--`, is the byte that was dropped last. -/
def backtrack (dotdot : Nat) : List Char → List Char
  | [] => []
  | c :: out => if out.length > dotdot && c != '/' then backtrack dotdot out else out

/-- The main loop `for r < n { switch { ... } }` of `Clean`.  `r` is the unread part
`path[r:]`, `out` the buffer written so far (most recent byte first), `dotdot` the
index where `..` must stop.  Every iteration reads at least one byte, so the loop
runs at most `len(path)` times, which is the fuel `Clean` passes. -/
def cleanLoop (rooted : Bool) : Nat → GoString → List Char → Nat → List Char
  | 0, _, out, _ => out
  | fuel + 1, r, out, dotdot =>
    match r with
    | [] => out
    | c :: r1 =>
      if c = '/' then
        -- empty path element
        cleanLoop rooted fuel r1 out dotdot
      else if c = '.' ∧ (r1 = [] ∨ r1.head? = some '/') then
        -- . element
        cleanLoop rooted fuel r1 out dotdot
      else if c = '.' ∧ r1.head? = some '.' ∧ (r1.tail = [] ∨ r1.tail.head? = some '/') then
        -- .. element: remove to last /
        if out.length > dotdot then
          cleanLoop rooted fuel r1.tail (backtrack dotdot out) dotdot
        else if !rooted then
          let out1 := if out.length > 0 then '/' :: out else out
          let out2 := '.' :: '.' :: out1
          cleanLoop rooted fuel r1.tail out2 out2.length
        else
          cleanLoop rooted fuel r1.tail out dotdot
      else
        -- real path element: add slash if needed, copy element
        let out1 :=
          if (rooted && out.length != 1) || (!rooted && out.length != 0) then '/' :: out
          else out
        cleanLoop rooted fuel ((c :: r1).dropWhile (· != '/'))
          (((c :: r1).takeWhile (· != '/')).reverse ++ out1) dotdot

/-- Go `path.Clean`. -/
def Clean (p : GoString) : GoString :=
  if p = [] then ['.']
  else
    let rooted : Bool := p.head? = some '/'
    let out :=
      if rooted then cleanLoop rooted p.length p.tail ['/'] 1
      else cleanLoop rooted p.length p [] 0
    if out.length = 0 then ['.'] else out.reverse

end path

namespace filepath

/-- Go `filepath.FromSlash`; the separator is `'/'`, so nothing is replaced. -/
def FromSlash (p : GoString) : GoString := p

/-- Go `filepath.Clean`; with separator `'/'` and no volume name it is the algorithm
of `path.Clean`. -/
def Clean (p : GoString) : GoString := path.Clean p

/-- Go `filepath.Join`: the elements from the first non-empty one on are joined with
the separator and cleaned; the result is empty when every element is empty. -/
def Join : List GoString → GoString
  | [] => []
  | e :: rest => if e ≠ [] then Clean (strings.Join (e :: rest) ['/']) else Join rest

/-- Go `filepath.Base`: strip trailing separators, keep what follows the last
separator; `"."` for the empty path and `"/"` for a path of separators only. -/
def Base (p : GoString) : GoString :=
  if p = [] then ['.']
  else
    let p1 := (p.reverse.dropWhile (· == '/')).reverse
    let p2 := (p1.reverse.takeWhile (· != '/')).reverse
    if p2 = [] then ['/'] else p2

end filepath

/-- A Go `error` value, as far as `os.IsNotExist` and `os.IsPermission` can tell
errors apart. -/
inductive GoError where
  | ErrNotExist : GoError
  | ErrPermission : GoError
  | ErrExist : GoError
  | Errno (n : Nat) : GoError
  | PathError (op : GoString) (name : GoString) (err : GoError) : GoError
  | LinkError (op : GoString) (old : GoString) (new : GoString) (err : GoError) : GoError
  | SyscallError (syscall : GoString) (err : GoError) : GoError
  | other (msg : GoString) : GoError
  deriving DecidableEq

namespace os

/-- Go `os.underlyingError`: a `*PathError`, `*LinkError` or `*SyscallError` is
replaced by the error it wraps. -/
def underlyingError : GoError → GoError
  | .PathError _ _ err => err
  | .LinkError _ _ _ err => err
  | .SyscallError _ err => err
  | e => e

/-- Go `os.IsNotExist`: the underlying error is `ErrNotExist` or the errno `ENOENT`
(2). -/
def IsNotExist (err : GoError) : Bool :=
  match underlyingError err with
  | .ErrNotExist => true
  | .Errno n => n == 2
  | _ => false

/-- Go `os.IsPermission`: the underlying error is `ErrPermission` or one of the
errnos `EACCES` (13) and `EPERM` (1). -/
def IsPermission (err : GoError) : Bool :=
  match underlyingError err with
  | .ErrPermission => true
  | .Errno n => n == 13 || n == 1
  | _ => false

end os

/-! ## The package `serge` -/

/-- A Go call result `(v, err)`: `ok v` when `err == nil`, `err e` otherwise. -/
inductive Res (α : Type) where
  | ok (v : α) : Res α
  | err (e : GoError) : Res α
  deriving DecidableEq

/-- The parts of `os.FileInfo` the handler reads. -/
structure FileInfo where
  Name : GoString
  ModTime : Nat
  IsDir : Bool
  deriving DecidableEq

/-- An open `http.File`: the name it was opened under and what `Stat` returns on
it. -/
structure File where
  name : GoString
  Stat : Res FileInfo
  deriving DecidableEq

/-- The parts of `*http.Request` the package reads: `URL.Path`, `URL.RawQuery` and
the `Accept-Encoding` header. -/
structure Request where
  Path : GoString
  RawQuery : GoString
  AcceptEncoding : GoString
  deriving DecidableEq

/-- The `http.ResponseWriter` in use: the one the handler was called with, or the
encoder built around it by `newResponseWriterEncoder` for an encoding. -/
inductive ResponseWriter where
  | raw : ResponseWriter
  | encoder (enc : GoString) : ResponseWriter
  deriving DecidableEq

/-- The observable steps of the handler, recorded in program order. -/
inductive Event where
  | osOpen (fullName : GoString) : Event
  | fileClose (f : File) : Event
  | headerAdd (w : ResponseWriter) (key : GoString) (value : GoString) : Event
  | writeHeader (w : ResponseWriter) (status : Nat) : Event
  | logError (err : GoError) : Event
  | negotiate (req : Request) (encodings : List GoString) : Event
  | newEncoder (enc : GoString) : Event
  | serveContent (w : ResponseWriter) (req : Request) (name : GoString) (modTime : Nat)
      (f : File) : Event
  | encoderClose (enc : GoString) : Event
  deriving DecidableEq

/-- What `server.go` uses from the other files of the package. -/
structure Deps where
  encodingBrotli : GoString
  encodingGzip : GoString
  encodingDeflate : GoString
  encodingIdentity : GoString
  negotiateContentEncoding : Request → List GoString → Res GoString
  newResponseWriterEncoder : GoString → Res Unit

namespace http

def StatusMovedPermanently : Nat := 301
def StatusForbidden : Nat := 403
def StatusNotFound : Nat := 404
def StatusNotAcceptable : Nat := 406
def StatusInternalServerError : Nat := 500

end http

/-- The type `fileSystem` of `server.go`: the root directory. -/
abbrev fileSystem := GoString

/-- The local `fullName` of `fileSystem.Open`:
`filepath.Join(rootDir, filepath.FromSlash(name))`. -/
def fileSystem.fullName (fs : fileSystem) (name : GoString) : GoString :=
  filepath.Join [fs, filepath.FromSlash name]

/-- `fileSystem.Open` of `server.go`, over the operating system call `os.Open`
given as `osOpen`.  Returns the steps taken and the result. -/
def fileSystem.Open (osOpen : GoString → Res File) (fs : fileSystem) (name : GoString) :
    List Event × Res File :=
  let fullName := fileSystem.fullName fs name
  if strings.HasPrefix (filepath.Base fullName) ['.'] then
    ([], .err .ErrNotExist)
  else
    match osOpen fullName with
    | .err err => ([.osOpen fullName], .err err)
    | .ok file => ([.osOpen fullName], .ok file)

/-- `relRedirect` of `server.go`. -/
def relRedirect (req : Request) (relPath : GoString) : List Event :=
  let query := req.RawQuery
  let relPath1 := if query ≠ [] then relPath ++ (['?'] ++ query) else relPath
  [.headerAdd .raw "Location".toList relPath1,
   .writeHeader .raw http.StatusMovedPermanently]

/-- `toResponse` of `server.go`. -/
def toResponse (err : GoError) : List Event :=
  if os.IsNotExist err then [.writeHeader .raw http.StatusNotFound]
  else if os.IsPermission err then [.writeHeader .raw http.StatusForbidden]
  else [.logError err, .writeHeader .raw http.StatusInternalServerError]

/-- The local `indexPageName` of `ServeHTTP`. -/
def indexPageName : GoString := "index.html".toList

/-- One call of `fileServer.ServeHTTP` of `server.go` for the file system rooted at
`fs`; `self` stands for the call `fs.ServeHTTP(rw, req)` the body makes on the
rewritten request and returns the steps of that call, or `none` when it does not
return.  The deferred `file.Close()` and `rwEncoder.Close()` are recorded where they
run, at the end of the call and in reverse order of their `defer`. -/
def fileServer.serveCall (d : Deps) (osOpen : GoString → Res File) (fs : fileSystem)
    (self : Request → Option (List Event)) (req : Request) : Option (List Event) :=
  let urlPath := path.Clean req.Path
  let contentEncodings := [d.encodingBrotli, d.encodingGzip, d.encodingDeflate]
  match fileSystem.Open osOpen fs urlPath with
  | (t, .err err) => some (t ++ toResponse err)
  | (t, .ok file) =>
    match file.Stat with
    | .err err => some (t ++ toResponse err ++ [.fileClose file])
    | .ok fileInfo =>
      if fileInfo.IsDir then
        if !strings.HasSuffix req.Path ['/'] then
          some (t ++ relRedirect req (req.Path ++ ['/']) ++ [.fileClose file])
        else
          match self { req with Path := urlPath ++ ['/'] ++ indexPageName } with
          | none => none
          | some t1 => some (t ++ t1 ++ [.fileClose file])
      else
        match d.negotiateContentEncoding req contentEncodings with
        | .err err =>
          some (t ++ [.negotiate req contentEncodings] ++ toResponse err
            ++ [.fileClose file])
        | .ok contentEncoding =>
          if contentEncoding = [] then
            some (t ++ [.negotiate req contentEncodings,
              .writeHeader .raw http.StatusNotAcceptable, .fileClose file])
          else if contentEncoding ≠ d.encodingIdentity then
            match d.newResponseWriterEncoder contentEncoding with
            | .err err =>
              some (t ++ [.negotiate req contentEncodings, .newEncoder contentEncoding]
                ++ toResponse err ++ [.fileClose file])
            | .ok _ =>
              some (t ++ [.negotiate req contentEncodings, .newEncoder contentEncoding,
                .headerAdd (.encoder contentEncoding) "Content-Encoding".toList
                  contentEncoding,
                .serveContent (.encoder contentEncoding) req fileInfo.Name
                  fileInfo.ModTime file,
                .encoderClose contentEncoding, .fileClose file])
          else
            some (t ++ [.negotiate req contentEncodings,
              .headerAdd .raw "Content-Encoding".toList contentEncoding,
              .serveContent .raw req fileInfo.Name fileInfo.ModTime file,
              .fileClose file])

/-- `fileServer.ServeHTTP` of `server.go`, with a bound on the depth of calls: `depth`
counts the calls that may be active at once, the first one included, and `none` is
returned only when the handler would call itself beyond that depth. -/
def fileServer.ServeHTTP (d : Deps) (osOpen : GoString → Res File) (fs : fileSystem) :
    Nat → Request → Option (List Event)
  | 0, _ => none
  | depth + 1, req =>
    fileServer.serveCall d osOpen fs (fileServer.ServeHTTP d osOpen fs depth) req

/-! ## A small file tree and package environment for concrete runs -/

/-- A regular file opened under `name`. -/
def regularFile (name : GoString) : File :=
  { name := name, Stat := .ok { Name := filepath.Base name, ModTime := 0, IsDir := false } }

/-- A directory opened under `name`. -/
def directory (name : GoString) : File :=
  { name := name, Stat := .ok { Name := filepath.Base name, ModTime := 0, IsDir := true } }

/-- An `os.Open` over a small tree: the directories `/srv`, `/srv/www`,
`/srv/www/docs` and `/srv/www/docs/index.html`, the regular files
`/srv/www/index.html`, `/srv/www/secret/.env` and `/etc/passwd`, the unreadable
`/srv/www/private`, the failing `/srv/www/broken`, and `/srv/www/gone` whose `Stat`
fails. -/
def demoOpen (name : GoString) : Res File :=
  if name = "/srv".toList ∨ name = "/srv/www".toList ∨ name = "/srv/www/docs".toList
      ∨ name = "/srv/www/docs/index.html".toList then .ok (directory name)
  else if name = "/srv/www/index.html".toList ∨ name = "/srv/www/secret/.env".toList
      ∨ name = "/etc/passwd".toList then .ok (regularFile name)
  else if name = "/srv/www/private".toList then
    .err (.PathError "open".toList name (.Errno 13))
  else if name = "/srv/www/broken".toList then
    .err (.PathError "open".toList name (.Errno 5))
  else if name = "/srv/www/gone".toList then
    .ok { name := name, Stat := .err (.PathError "stat".toList name (.Errno 5)) }
  else .err (.PathError "open".toList name (.Errno 2))

/-- A package environment for concrete runs: the encodings are named `br`, `gzip`,
`deflate` and `identity`; negotiation knows a few literal header values; an encoder
exists for `br` and `gzip` only. -/
def demoDeps : Deps where
  encodingBrotli := "br".toList
  encodingGzip := "gzip".toList
  encodingDeflate := "deflate".toList
  encodingIdentity := "identity".toList
  negotiateContentEncoding := fun req _ =>
    if req.AcceptEncoding = [] then .ok "identity".toList
    else if req.AcceptEncoding = "gzip".toList then .ok "gzip".toList
    else if req.AcceptEncoding = "deflate".toList then .ok "deflate".toList
    else if req.AcceptEncoding = "zstd, identity;q=0".toList then .ok []
    else .err (.other "malformed Accept-Encoding".toList)
  newResponseWriterEncoder := fun enc =>
    if enc = "br".toList ∨ enc = "gzip".toList then .ok ()
    else .err (.other "unsupported encoding".toList)

/-- The root of the demonstration tree. -/
def demoRoot : fileSystem := "/srv/www".toList

/-- An `os.Open` over a tree with a directory whose name begins with `.`: the
directories `/srv/www` and `/srv/www/.well-known` and the regular file
`/srv/www/.well-known/index.html`. -/
def hiddenDirOpen (name : GoString) : Res File :=
  if name = "/srv/www".toList ∨ name = "/srv/www/.well-known".toList then
    .ok (directory name)
  else if name = "/srv/www/.well-known/index.html".toList then .ok (regularFile name)
  else .err (.PathError "open".toList name (.Errno 2))

/-- An `os.Open` relative to a working directory that holds `index.html`: the
directory `.` and the regular file `index.html`. -/
def workDirOpen (name : GoString) : Res File :=
  if name = ".".toList then .ok (directory name)
  else if name = "index.html".toList then .ok (regularFile name)
  else .err (.PathError "open".toList name (.Errno 2))

/-- A request with the given path, query and `Accept-Encoding`. -/
def mkReq (p q a : String) : Request :=
  { Path := p.toList, RawQuery := q.toList, AcceptEncoding := a.toList }

/-! ## Observations on a run -/

/-- The status codes written during a run, in order. -/
def statusCodes : List Event → List Nat
  | [] => []
  | .writeHeader _ status :: t => status :: statusCodes t
  | _ :: t => statusCodes t

/-- The values added under the header `key` during a run, in order. -/
def headerValues (key : GoString) : List Event → List GoString
  | [] => []
  | .headerAdd _ k v :: t => if k = key then v :: headerValues key t else headerValues key t
  | _ :: t => headerValues key t

/-- The calls of the content-writing primitive `http.ServeContent` during a run. -/
def primitiveCalls : List Event → List Event
  | [] => []
  | .serveContent w req name modTime f :: t =>
    .serveContent w req name modTime f :: primitiveCalls t
  | _ :: t => primitiveCalls t

/-- The calls of `negotiateContentEncoding` during a run. -/
def negotiations : List Event → List Event
  | [] => []
  | .negotiate req encs :: t => .negotiate req encs :: negotiations t
  | _ :: t => negotiations t

/-- The errors logged during a run. -/
def logged : List Event → List GoError
  | [] => []
  | .logError err :: t => err :: logged t
  | _ :: t => logged t

/-- The names handed to `os.Open` during a run. -/
def opened : List Event → List GoString
  | [] => []
  | .osOpen name :: t => name :: opened t
  | _ :: t => opened t

/-- The encoders built during a run. -/
def encodersBuilt : List Event → List GoString
  | [] => []
  | .newEncoder enc :: t => enc :: encodersBuilt t
  | _ :: t => encodersBuilt t

/-- The writer, name, modification time and file of each call of the content-writing
primitive during a run. -/
def primitiveArgs : List Event → List (ResponseWriter × GoString × Nat × File)
  | [] => []
  | .serveContent w _ name modTime f :: t => (w, name, modTime, f) :: primitiveArgs t
  | _ :: t => primitiveArgs t

/-- The supported encodings `ServeHTTP` passes to the negotiation. -/
def Deps.contentEncodings (d : Deps) : List GoString :=
  [d.encodingBrotli, d.encodingGzip, d.encodingDeflate]

/-- The request opens as `file` with file information `info`: `fileSystem.Open` on
the cleaned URL path returns `file` and `file.Stat()` returns `info`. -/
def OpensAs (osOpen : GoString → Res File) (fs : fileSystem) (req : Request)
    (file : File) (info : FileInfo) : Prop :=
  (fileSystem.Open osOpen fs (path.Clean req.Path)).2 = .ok file ∧ file.Stat = .ok info

instance (osOpen : GoString → Res File) (fs : fileSystem) (req : Request)
    (file : File) (info : FileInfo) : Decidable (OpensAs osOpen fs req file info) := by
  unfold OpensAs; infer_instance

/-! ## Basic facts -/

/-- Fuel beyond the length of the unread part does not change the loop of `Clean`:
the fuel `len(path)` that `Clean` passes is enough. -/
theorem path.cleanLoop_fuel (rooted : Bool) :
    ∀ (f1 f2 : Nat) (r out : List Char) (dd : Nat), r.length ≤ f1 → r.length ≤ f2 →
      path.cleanLoop rooted f1 r out dd = path.cleanLoop rooted f2 r out dd := by
  intro f1
  induction f1 with
  | zero =>
    intro f2 r out dd h1 _
    have hr : r = [] := List.length_eq_zero.mp (Nat.le_zero.mp h1)
    subst hr
    cases f2 <;> simp [path.cleanLoop]
  | succ n ih =>
    intro f2 r out dd h1 h2
    cases f2 with
    | zero =>
      have hr : r = [] := List.length_eq_zero.mp (Nat.le_zero.mp h2)
      subst hr
      simp [path.cleanLoop]
    | succ m =>
      cases r with
      | nil => simp [path.cleanLoop]
      | cons c r1 =>
        simp only [List.length_cons, Nat.add_le_add_iff_right] at h1 h2
        have ht1 : r1.tail.length ≤ n := le_trans (by simp) h1
        have ht2 : r1.tail.length ≤ m := le_trans (by simp) h2
        have hdw : ∀ k, r1.length ≤ k → ¬ c = '/' →
            (List.dropWhile (· != '/') (c :: r1)).length ≤ k := by
          intro k hk hc
          have hp : (c != '/') = true := by simpa using hc
          simp only [List.dropWhile_cons, hp, if_true]
          exact le_trans (List.dropWhile_suffix _).length_le hk
        simp only [path.cleanLoop]
        split
        · exact ih m r1 out dd h1 h2
        · rename_i hc
          split
          · exact ih m r1 out dd h1 h2
          · split
            · split
              · exact ih m _ _ dd ht1 ht2
              · split
                · exact ih m _ _ _ ht1 ht2
                · exact ih m _ _ dd ht1 ht2
            · exact ih m _ _ dd (hdw n h1 hc) (hdw m h2 hc)

theorem path.cleanLoop_slashes (rooted : Bool) :
    ∀ (t : List Char), (∀ c ∈ t, c = '/') → ∀ (fuel : Nat) (out : List Char) (dd : Nat),
      path.cleanLoop rooted fuel t out dd = out := by
  intro t
  induction t with
  | nil => intro _ fuel out dd; cases fuel <;> simp [path.cleanLoop]
  | cons c t ih =>
    intro ht fuel out dd
    cases fuel with
    | zero => simp [path.cleanLoop]
    | succ n =>
      have hc : c = '/' := ht c (List.mem_cons_self _ _)
      have ht1 : ∀ x ∈ t, x = '/' := fun x hx => ht x (List.mem_cons_of_mem _ hx)
      simp only [path.cleanLoop, hc, if_true]
      exact ih ht1 n out dd

theorem scan_elem (e t : List Char) (he : ∀ c ∈ e, c ≠ '/')
    (ht : ∀ c ∈ t.head?, c = '/') :
    (e ++ t).takeWhile (· != '/') = e ∧ (e ++ t).dropWhile (· != '/') = t := by
  induction e with
  | nil =>
    cases t with
    | nil => simp
    | cons x t =>
      have hx : x = '/' := ht x (by simp)
      simp [hx]
  | cons x e ih =>
    have hx : x ≠ '/' := he x (List.mem_cons_self _ _)
    have ih1 := ih (fun c hc => he c (List.mem_cons_of_mem _ hc))
    simp [hx, ih1.1, ih1.2]

theorem scan_through (a rest : List Char) (ha : a.getLast? = some '/') :
    (a ++ rest).takeWhile (· != '/') = a.takeWhile (· != '/') ∧
    (a ++ rest).dropWhile (· != '/') = a.dropWhile (· != '/') ++ rest ∧
    (a.dropWhile (· != '/')).getLast? = some '/' ∧
    (a.dropWhile (· != '/')).length ≤ a.length := by
  induction a with
  | nil => simp at ha
  | cons x a ih =>
    by_cases hx : x = '/'
    · subst hx
      simp [ha]
    · cases a with
      | nil =>
        simp only [List.getLast?_singleton, Option.some.injEq] at ha
        exact absurd ha hx
      | cons y a =>
        have ha1 : (y :: a).getLast? = some '/' := by
          rw [List.getLast?_cons_cons] at ha
          exact ha
        obtain ⟨h1, h2, h3, h4⟩ := ih ha1
        have hp : (x != '/') = true := by simpa using hx
        refine ⟨?_, ?_, ?_, ?_⟩
        · simp only [List.cons_append, List.takeWhile_cons, hp, if_true] at h1 ⊢
          rw [h1]
        · simp only [List.cons_append, List.dropWhile_cons, hp, if_true] at h2 ⊢
          rw [h2]
        · simp only [List.dropWhile_cons, hp, if_true] at h3 ⊢
          exact h3
        · simp only [List.dropWhile_cons, hp, if_true] at h4 ⊢
          exact Nat.le_succ_of_le h4

theorem path.backtrack_getLast? (out : List Char) (h : out.length > 1) :
    (path.backtrack 1 out).getLast? = out.getLast? := by
  induction out with
  | nil => simp at h
  | cons c o ih =>
    cases o with
    | nil => simp at h
    | cons y o =>
      rw [List.getLast?_cons_cons]
      unfold path.backtrack
      split
      · rename_i hc
        simp only [Bool.and_eq_true, decide_eq_true_eq] at hc
        exact ih hc.1
      · rfl

theorem path.slash_head_of_sep (rooted : Bool) (out : List Char) (dd : Nat)
    (hinv : rooted = true → out.getLast? = some '/' ∧ dd = 1) :
    ∀ x ∈ (if (rooted && out.length != 1) || (!rooted && out.length != 0) then '/' :: out
        else out).head?, x = '/' := by
  intro x hx
  split at hx
  · simpa using hx.symm
  · rename_i hcond
    cases rooted with
    | true =>
      simp only [Bool.true_and, Bool.not_true, Bool.false_and, Bool.or_false, bne_iff_ne, ne_eq,
        Decidable.not_not] at hcond
      obtain ⟨y, rfl⟩ := List.length_eq_one.mp hcond
      have := (hinv rfl).1
      simp only [List.getLast?_singleton, Option.some.injEq] at this
      simp only [List.head?_cons, Option.mem_def, Option.some.injEq] at hx
      rw [← hx, this]
    | false =>
      simp only [Bool.false_and, Bool.not_false, Bool.true_and, Bool.false_or, bne_iff_ne, ne_eq,
        Decidable.not_not] at hcond
      rw [List.length_eq_zero] at hcond
      subst hcond
      simp at hx

theorem path.cleanLoop_last_elem (rooted : Bool) (e t : List Char)
    (he0 : e ≠ []) (he : ∀ c ∈ e, c ≠ '/') (hd : e ≠ ['.']) (hdd : e ≠ ['.', '.'])
    (ht : ∀ c ∈ t, c = '/') :
    ∀ (fuel : Nat) (a out : List Char) (dd : Nat),
      (a ++ (e ++ t)).length ≤ fuel → (∀ c ∈ a.getLast?, c = '/') →
      (rooted = true → out.getLast? = some '/' ∧ dd = 1) →
      ∃ pre, path.cleanLoop rooted fuel (a ++ (e ++ t)) out dd = e.reverse ++ pre ∧
        ∀ c ∈ pre.head?, c = '/' := by
  intro fuel
  induction fuel with
  | zero =>
    intro a out dd hlen
    simp only [List.length_append, Nat.le_zero, Nat.add_eq_zero, List.length_eq_zero] at hlen
    exact absurd hlen.2.1 he0
  | succ n ih =>
    intro a out dd hlen ha hinv
    have hthead : ∀ x ∈ t.head?, x = '/' := by
      intro x hx
      cases t with
      | nil => simp at hx
      | cons y t =>
        simp only [List.head?_cons, Option.mem_def, Option.some.injEq] at hx
        exact hx ▸ ht y (List.mem_cons_self _ _)
    cases a with
    | nil =>
      obtain ⟨c, e1, rfl⟩ := List.exists_cons_of_ne_nil he0
      have hc : c ≠ '/' := he c (List.mem_cons_self _ _)
      have he1 : ∀ x ∈ e1, x ≠ '/' := fun x hx => he x (List.mem_cons_of_mem _ hx)
      have h2 : ¬ (c = '.' ∧ (e1 ++ t = [] ∨ (e1 ++ t).head? = some '/')) := by
        rintro ⟨rfl, h | h⟩
        · simp only [List.append_eq_nil] at h
          exact hd (by rw [h.1])
        · cases e1 with
          | nil => exact hd rfl
          | cons y e2 =>
            simp only [List.cons_append, List.head?_cons, Option.some.injEq] at h
            exact he1 y (List.mem_cons_self _ _) h
      have h3 : ¬ (c = '.' ∧ (e1 ++ t).head? = some '.' ∧
          ((e1 ++ t).tail = [] ∨ (e1 ++ t).tail.head? = some '/')) := by
        rintro ⟨rfl, hh, h⟩
        cases e1 with
        | nil =>
          have := hthead '.' (by simpa using hh)
          exact absurd this (by decide)
        | cons y e2 =>
          simp only [List.cons_append, List.head?_cons, Option.some.injEq] at hh
          subst hh
          cases e2 with
          | nil => exact hdd rfl
          | cons z e3 =>
            simp only [List.cons_append, List.tail_cons, List.head?_cons, Option.some.injEq,
              reduceCtorEq, false_or] at h
            exact he z (by simp) h
      obtain ⟨htw, hdw⟩ := scan_elem (c :: e1) t he hthead
      simp only [List.cons_append] at htw hdw
      simp only [List.nil_append, List.cons_append, path.cleanLoop]
      rw [if_neg hc, if_neg h2, if_neg h3, htw, hdw, path.cleanLoop_slashes rooted t ht]
      exact ⟨_, rfl, path.slash_head_of_sep rooted out dd hinv⟩
    | cons c a1 =>
      have hlen1 : (a1 ++ (e ++ t)).length ≤ n := by
        simp only [List.cons_append, List.length_cons] at hlen
        omega
      by_cases hc : c = '/'
      · have ha1 : ∀ x ∈ a1.getLast?, x = '/' := by
          intro x hx
          cases a1 with
          | nil => simp at hx
          | cons y a2 => exact ha x (by rw [List.getLast?_cons_cons]; exact hx)
        simp only [List.cons_append, path.cleanLoop]
        rw [if_pos hc]
        exact ih a1 out dd hlen1 ha1 hinv
      · obtain ⟨y, a2, rfl⟩ : ∃ y a2, a1 = y :: a2 := by
          cases a1 with
          | nil => exact absurd (ha c (by simp)) hc
          | cons y a2 => exact ⟨y, a2, rfl⟩
        have ha1 : (y :: a2).getLast? = some '/' := by
          have h := ha
          rw [List.getLast?_cons_cons] at h
          cases hl : (y :: a2).getLast? with
          | none => simp at hl
          | some z => rw [h z (by rw [hl]; rfl)]
        have ha1m : ∀ x ∈ (y :: a2).getLast?, x = '/' := by
          intro x hx
          rw [ha1] at hx
          simpa using hx.symm
        simp only [List.cons_append, path.cleanLoop]
        rw [if_neg hc]
        split
        · exact ih (y :: a2) out dd hlen1 ha1m hinv
        · split
          · rename_i h3
            simp only [List.head?_cons, Option.some.injEq, List.tail_cons] at h3
            obtain ⟨-, rfl, -⟩ := h3
            obtain ⟨z, a3, rfl⟩ : ∃ z a3, a2 = z :: a3 := by
              cases a2 with
              | nil => simp at ha1
              | cons z a3 => exact ⟨z, a3, rfl⟩
            have ha2 : ∀ x ∈ (z :: a3).getLast?, x = '/' := by
              intro x hx
              rw [List.getLast?_cons_cons] at ha1m
              exact ha1m x hx
            have hlen2 : (z :: a3 ++ (e ++ t)).length ≤ n := by
              simp only [List.cons_append, List.length_cons] at hlen1 ⊢
              omega
            split
            · rename_i hgt
              refine ih (z :: a3) _ dd hlen2 ha2 ?_
              intro hr
              obtain ⟨h1, h2⟩ := hinv hr
              subst h2
              exact ⟨by rw [path.backtrack_getLast? out hgt]; exact h1, rfl⟩
            · split
              · rename_i hr
                refine ih (z :: a3) _ _ hlen2 ha2 ?_
                intro hr1
                rw [hr1] at hr
                simp at hr
              · exact ih (z :: a3) out dd hlen2 ha2 hinv
          · have hp : (c != '/') = true := by simpa using hc
            obtain ⟨h1, h2, h3, h4⟩ := scan_through (y :: a2) (e ++ t) ha1
            simp only [List.cons_append] at h1 h2
            have e1 : List.dropWhile (· != '/') (c :: y :: (a2 ++ (e ++ t)))
                = List.dropWhile (· != '/') (y :: (a2 ++ (e ++ t))) := by
              simp only [List.dropWhile_cons, hp, if_true]
            have e2 : List.takeWhile (· != '/') (c :: y :: (a2 ++ (e ++ t)))
                = c :: List.takeWhile (· != '/') (y :: (a2 ++ (e ++ t))) := by
              rw [List.takeWhile_cons, hp, if_pos rfl]
            rw [e1, e2, h1, h2]
            have h3m : ∀ x ∈ (List.dropWhile (· != '/') (y :: a2)).getLast?, x = '/' := by
              intro x hx
              rw [h3] at hx
              simpa using hx.symm
            refine ih _ _ dd ?_ h3m ?_
            · simp only [List.length_append] at hlen1 ⊢
              omega
            · intro hr
              obtain ⟨hi1, hi2⟩ := hinv hr
              refine ⟨?_, hi2⟩
              have hne : out ≠ [] := by
                intro h0
                rw [h0] at hi1
                simp at hi1
              rw [List.getLast?_append_of_ne_nil]
              · split
                · obtain ⟨o, os, rfl⟩ := List.exists_cons_of_ne_nil hne
                  rw [List.getLast?_cons_cons]
                  exact hi1
                · exact hi1
              · split
                · simp
                · exact hne

theorem filepath.Base_decompose (s e : GoString) (h : filepath.Base s = e)
    (hdot : e.head? = some '.') (hd : e ≠ ['.']) :
    ∃ a t, s = a ++ (e ++ t) ∧ (∀ c ∈ a.getLast?, c = '/') ∧ (∀ c ∈ e, c ≠ '/') ∧
      (∀ c ∈ t, c = '/') := by
  unfold filepath.Base at h
  by_cases hs : s = []
  · rw [if_pos hs] at h
    exact absurd h.symm hd
  · rw [if_neg hs] at h
    simp only [List.reverse_reverse] at h
    split at h
    · rw [← h] at hdot
      simp at hdot
    · refine ⟨((s.reverse.dropWhile (· == '/')).dropWhile (· != '/')).reverse,
        (s.reverse.takeWhile (· == '/')).reverse, ?_, ?_, ?_, ?_⟩
      · rw [← h, ← List.append_assoc, ← List.reverse_append, List.takeWhile_append_dropWhile,
          ← List.reverse_append, List.takeWhile_append_dropWhile, List.reverse_reverse]
      · intro c hc
        rw [List.getLast?_reverse] at hc
        have := List.head?_dropWhile_not (· != '/') (s.reverse.dropWhile (· == '/'))
        rw [Option.mem_def] at hc
        rw [hc] at this
        simpa using this
      · intro c hc
        rw [← h, List.mem_reverse] at hc
        simpa using List.mem_takeWhile_imp hc
      · intro c hc
        rw [List.mem_reverse] at hc
        simpa using List.mem_takeWhile_imp hc

theorem filepath.Base_of_last_elem (pre e : GoString) (hpre : ∀ c ∈ pre.getLast?, c = '/')
    (he0 : e ≠ []) (he : ∀ c ∈ e, c ≠ '/') : filepath.Base (pre ++ e) = e := by
  unfold filepath.Base
  have hne : pre ++ e ≠ [] := by simp [he0]
  rw [if_neg hne]
  simp only [List.reverse_reverse, List.reverse_append]
  obtain ⟨c, e1, hc⟩ := List.exists_cons_of_ne_nil (by simpa using he0 : e.reverse ≠ [])
  have hcne : c ≠ '/' := he c (by rw [← List.mem_reverse, hc]; exact List.mem_cons_self _ _)
  have hdw : List.dropWhile (· == '/') (e.reverse ++ pre.reverse) = e.reverse ++ pre.reverse := by
    rw [hc, List.cons_append]
    apply List.dropWhile_cons_of_neg
    simpa using hcne
  rw [hdw]
  have htw := (scan_elem e.reverse pre.reverse
    (fun x hx => he x (List.mem_reverse.mp hx))
    (by rw [List.head?_reverse]; exact hpre)).1
  rw [htw]
  simp [he0]

theorem path.Clean_last_elem (s a e t : GoString) (hs : s = a ++ (e ++ t))
    (ha : ∀ c ∈ a.getLast?, c = '/') (he0 : e ≠ []) (he : ∀ c ∈ e, c ≠ '/')
    (hd : e ≠ ['.']) (hdd : e ≠ ['.', '.']) (ht : ∀ c ∈ t, c = '/') :
    ∃ pre, path.Clean s = pre ++ e ∧ ∀ c ∈ pre.getLast?, c = '/' := by
  have hsne : s ≠ [] := by rw [hs]; simp [he0]
  have key : ∀ (rooted : Bool) (a1 out : List Char) (dd : Nat),
      (a1 ++ (e ++ t)).length ≤ s.length → (∀ c ∈ a1.getLast?, c = '/') →
      (rooted = true → out.getLast? = some '/' ∧ dd = 1) →
      ∃ pre, (if (path.cleanLoop rooted s.length (a1 ++ (e ++ t)) out dd).length = 0 then ['.']
          else (path.cleanLoop rooted s.length (a1 ++ (e ++ t)) out dd).reverse) = pre ++ e ∧
        ∀ c ∈ pre.getLast?, c = '/' := by
    intro rooted a1 out dd hlen ha1 hinv
    obtain ⟨pre, hpre, hh⟩ := path.cleanLoop_last_elem rooted e t he0 he hd hdd ht s.length a1 out dd
      hlen ha1 hinv
    rw [hpre]
    refine ⟨pre.reverse, ?_, ?_⟩
    · rw [if_neg (by simp [he0])]
      simp
    · rw [List.getLast?_reverse]
      exact hh
  unfold path.Clean
  rw [if_neg hsne]
  cases a with
  | nil =>
    obtain ⟨c, e1, rfl⟩ := List.exists_cons_of_ne_nil he0
    have hc : c ≠ '/' := he c (List.mem_cons_self _ _)
    have hr : decide (s.head? = some '/') = false := by
      rw [hs]
      simpa using hc
    simp only [hr, Bool.false_eq_true, if_false]
    exact hs ▸ key false [] [] 0 (by rw [hs]) ha (by simp)
  | cons c a1 =>
    have ha1 : ∀ x ∈ a1.getLast?, x = '/' := by
      intro x hx
      cases a1 with
      | nil => simp at hx
      | cons y a2 => exact ha x (by rw [List.getLast?_cons_cons]; exact hx)
    by_cases hc : c = '/'
    · have hr : decide (s.head? = some '/') = true := by
        rw [hs]
        simpa using hc
      simp only [hr, if_true]
      have htail : s.tail = a1 ++ (e ++ t) := by rw [hs]; rfl
      rw [htail]
      exact key true a1 ['/'] 1 (by rw [hs]; simp) ha1 (by simp)
    · have hr : decide (s.head? = some '/') = false := by
        rw [hs]
        simpa using hc
      simp only [hr, Bool.false_eq_true, if_false]
      exact hs ▸ key false (c :: a1) [] 0 (by rw [hs]) ha (by simp)

theorem strings.hasPrefix_dot (e : GoString) :
    strings.HasPrefix e ['.'] = true ↔ e.head? = some '.' := by
  cases e with
  | nil => simp [strings.HasPrefix]
  | cons c e1 => simp [strings.HasPrefix]

theorem fileSystem.fullName_base (fs : fileSystem) (name e : GoString)
    (hB : filepath.Base name = e) (hdot : e.head? = some '.') (hd : e ≠ ['.'])
    (hdd : e ≠ ['.', '.']) :
    filepath.Base (fileSystem.fullName fs name) = e := by
  obtain ⟨a, t, hs, ha, he, ht⟩ := filepath.Base_decompose name e hB hdot hd
  have he0 : e ≠ [] := by
    intro h0
    rw [h0] at hdot
    simp at hdot
  have hname : name ≠ [] := by rw [hs]; simp [he0]
  unfold fileSystem.fullName filepath.FromSlash
  by_cases hfs : fs = []
  · subst hfs
    simp only [filepath.Join, ne_eq, not_true_eq_false, if_false, hname, not_false_eq_true,
      if_true, strings.Join, filepath.Clean]
    obtain ⟨pre, hpre, hh⟩ := path.Clean_last_elem name a e t hs ha he0 he hd hdd ht
    rw [hpre]
    exact filepath.Base_of_last_elem pre e hh he0 he
  · simp only [filepath.Join, ne_eq, hfs, not_false_eq_true, if_true, strings.Join,
      filepath.Clean]
    have hs1 : fs ++ ['/'] ++ name = (fs ++ ['/'] ++ a) ++ (e ++ t) := by
      rw [hs]
      simp
    have ha1 : ∀ c ∈ (fs ++ ['/'] ++ a).getLast?, c = '/' := by
      intro c hc
      cases a with
      | nil =>
        simp only [List.append_nil, List.getLast?_append_of_ne_nil _ (List.cons_ne_nil _ _),
          List.getLast?_singleton] at hc
        simpa using hc.symm
      | cons y a2 =>
        rw [List.getLast?_append_of_ne_nil _ (List.cons_ne_nil _ _)] at hc
        exact ha c hc
    obtain ⟨pre, hpre, hh⟩ := path.Clean_last_elem _ _ e t hs1 ha1 he0 he hd hdd ht
    rw [hpre]
    exact filepath.Base_of_last_elem pre e hh he0 he

theorem fileSystem.Open_ok {osOpen : GoString → Res File} {fs : fileSystem}
    {name : GoString} {file : File}
    (h : (fileSystem.Open osOpen fs name).2 = .ok file) :
    fileSystem.Open osOpen fs name = ([.osOpen (fileSystem.fullName fs name)], .ok file) := by
  simp only [fileSystem.Open] at h ⊢
  by_cases hh : strings.HasPrefix (filepath.Base (fileSystem.fullName fs name)) ['.'] = true
  · simp [hh] at h
  · cases hos : osOpen (fileSystem.fullName fs name) <;> simp_all

theorem fileSystem.Open_err {osOpen : GoString → Res File} {fs : fileSystem}
    {name : GoString} {err : GoError}
    (h : (fileSystem.Open osOpen fs name).2 = .err err) :
    fileSystem.Open osOpen fs name = ((fileSystem.Open osOpen fs name).1, .err err) := by
  rw [← h]

theorem OpensAs_of {osOpen : GoString → Res File} {fs : fileSystem} {req : Request}
    {file : File} {info : FileInfo}
    (hname : strings.HasPrefix
      (filepath.Base (fileSystem.fullName fs (path.Clean req.Path))) ['.'] = false)
    (hopen : osOpen (fileSystem.fullName fs (path.Clean req.Path)) = .ok file)
    (hstat : file.Stat = .ok info) : OpensAs osOpen fs req file info := by
  refine ⟨?_, hstat⟩
  simp only [fileSystem.Open, hname, hopen]
  simp

theorem toResponse_notExist {err : GoError} (h : os.IsNotExist err = true) :
    toResponse err = [.writeHeader .raw 404] := by
  simp [toResponse, h, http.StatusNotFound]

theorem os.not_IsNotExist_of_IsPermission {err : GoError} (h : os.IsPermission err = true) :
    os.IsNotExist err = false := by
  unfold os.IsPermission at h
  unfold os.IsNotExist
  cases hu : os.underlyingError err <;> simp_all
  rcases h with h | h <;> omega

theorem toResponse_permission {err : GoError} (h : os.IsPermission err = true) :
    toResponse err = [.writeHeader .raw 403] := by
  simp [toResponse, h, os.not_IsNotExist_of_IsPermission h, http.StatusForbidden]

theorem toResponse_other {err : GoError} (h1 : os.IsNotExist err = false)
    (h2 : os.IsPermission err = false) :
    toResponse err = [.logError err, .writeHeader .raw 500] := by
  simp [toResponse, h1, h2, http.StatusInternalServerError]

theorem toResponse_cases (err : GoError) :
    toResponse err = [.writeHeader .raw 404] ∨ toResponse err = [.writeHeader .raw 403]
      ∨ toResponse err = [.logError err, .writeHeader .raw 500] := by
  cases h1 : os.IsNotExist err
  · cases h2 : os.IsPermission err
    · exact Or.inr (Or.inr (toResponse_other h1 h2))
    · exact Or.inr (Or.inl (toResponse_permission h2))
  · exact Or.inl (toResponse_notExist h1)

/-- C6. Every error from opening or stat-ing the resource is answered by exactly one
status code and nothing else: 404 for a not-exist error, 403 for a permission
error, 500 otherwise; the error is logged in the 500 case and in no other; and
`ServeHTTP` stops there, having neither negotiated nor called the content-writing
primitive. -/
theorem toResponse_classifies_filesystem_errors (d : Deps) (osOpen : GoString → Res File)
    (fs : fileSystem) (req : Request) (depth : Nat) (err : GoError) (hdepth : 1 ≤ depth) :
    (os.IsNotExist err = true → toResponse err = [.writeHeader .raw 404]) ∧
    (os.IsPermission err = true → toResponse err = [.writeHeader .raw 403]) ∧
    (os.IsNotExist err = false → os.IsPermission err = false →
      toResponse err = [.logError err, .writeHeader .raw 500]) ∧
    (logged (toResponse err) ≠ [] ↔ statusCodes (toResponse err) = [500]) ∧
    ((fileSystem.Open osOpen fs (path.Clean req.Path)).2 = .err err →
      fileServer.ServeHTTP d osOpen fs depth req
        = some ((fileSystem.Open osOpen fs (path.Clean req.Path)).1 ++ toResponse err)) ∧
    (∀ file, (fileSystem.Open osOpen fs (path.Clean req.Path)).2 = .ok file →
      file.Stat = .err err →
      fileServer.ServeHTTP d osOpen fs depth req
        = some ([.osOpen (fileSystem.fullName fs (path.Clean req.Path))] ++ toResponse err
            ++ [.fileClose file])) ∧
    negotiations (toResponse err) = [] ∧ primitiveCalls (toResponse err) = [] := by
  obtain ⟨k, rfl⟩ : ∃ k, depth = k + 1 := ⟨depth - 1, by omega⟩
  refine ⟨toResponse_notExist, toResponse_permission, toResponse_other, ?_, ?_, ?_, ?_⟩
  · rcases toResponse_cases err with h | h | h <;> simp [h, logged, statusCodes]
  · intro h
    simp only [fileServer.ServeHTTP, fileServer.serveCall]
    rw [fileSystem.Open_err h]
  · intro file h hstat
    simp only [fileServer.ServeHTTP, fileServer.serveCall]
    rw [fileSystem.Open_ok h]
    simp only [hstat]
  · rcases toResponse_cases err with h | h | h <;> simp [h, negotiations, primitiveCalls]

/-- C6, at a concrete input: `/private` cannot be read (errno `EACCES`), the answer is
403 with nothing logged. -/
theorem toResponse_classifies_filesystem_errors_witness :
    fileServer.ServeHTTP demoDeps demoOpen demoRoot 1 (mkReq "/private" "" "")
      = some ([.osOpen "/srv/www/private".toList]
          ++ toResponse (.PathError "open".toList "/srv/www/private".toList (.Errno 13))) :=
  (toResponse_classifies_filesystem_errors demoDeps demoOpen demoRoot
    (mkReq "/private" "" "") 1
    (.PathError "open".toList "/srv/www/private".toList (.Errno 13)) (by decide)).2.2.2.2.1
    (by decide)

theorem fileServer.ServeHTTP_redirect (d : Deps) (osOpen : GoString → Res File)
    (fs : fileSystem) (req : Request) (k : Nat) (file : File) (info : FileInfo)
    (hopen : OpensAs osOpen fs req file info)
    (hdir : info.IsDir = true) (hraw : strings.HasSuffix req.Path ['/'] = false) :
    fileServer.ServeHTTP d osOpen fs (k + 1) req
      = some [.osOpen (fileSystem.fullName fs (path.Clean req.Path)),
           .headerAdd .raw "Location".toList
             (req.Path ++ ['/'] ++ (if req.RawQuery = [] then [] else '?' :: req.RawQuery)),
           .writeHeader .raw 301, .fileClose file] := by
  obtain ⟨ho, hs⟩ := hopen
  simp only [fileServer.ServeHTTP, fileServer.serveCall]
  rw [fileSystem.Open_ok ho]
  simp only [hs, hdir, hraw, relRedirect, http.StatusMovedPermanently]
  by_cases hq : req.RawQuery = [] <;> simp [hq]

/-- C4. A request whose cleaned path opens as a directory and whose raw path does not
end with `/` is answered by 301 with one `Location` value, the raw path followed by
`/` and, when the query is not empty, by `?` and the raw query; nothing is
negotiated and the content-writing primitive is not called. -/
theorem trailing_slash_redirect (d : Deps) (osOpen : GoString → Res File)
    (fs : fileSystem) (req : Request) (depth : Nat) (file : File) (info : FileInfo)
    (hdepth : 1 ≤ depth) (hopen : OpensAs osOpen fs req file info)
    (hdir : info.IsDir = true) (hraw : strings.HasSuffix req.Path ['/'] = false) :
    ∃ t, fileServer.ServeHTTP d osOpen fs depth req = some t ∧
      t = [.osOpen (fileSystem.fullName fs (path.Clean req.Path)),
           .headerAdd .raw "Location".toList
             (req.Path ++ ['/'] ++ (if req.RawQuery = [] then [] else '?' :: req.RawQuery)),
           .writeHeader .raw 301, .fileClose file] ∧
      statusCodes t = [301] ∧
      headerValues "Location".toList t
        = [req.Path ++ ['/'] ++ (if req.RawQuery = [] then [] else '?' :: req.RawQuery)] ∧
      negotiations t = [] ∧ primitiveCalls t = [] := by
  obtain ⟨k, rfl⟩ : ∃ k, depth = k + 1 := ⟨depth - 1, by omega⟩
  refine ⟨_, fileServer.ServeHTTP_redirect d osOpen fs req k file info hopen hdir hraw, rfl, ?_⟩
  simp [statusCodes, headerValues, negotiations, primitiveCalls]

/-- C4, at a concrete input: `/docs?a=b` is redirected to `/docs/?a=b`. -/
theorem trailing_slash_redirect_witness :
    ∃ t, fileServer.ServeHTTP demoDeps demoOpen demoRoot 1 (mkReq "/docs" "a=b" "") = some t ∧
      t = [.osOpen "/srv/www/docs".toList,
           .headerAdd .raw "Location".toList "/docs/?a=b".toList,
           .writeHeader .raw 301, .fileClose (directory "/srv/www/docs".toList)] ∧
      statusCodes t = [301] ∧
      headerValues "Location".toList t = ["/docs/?a=b".toList] ∧
      negotiations t = [] ∧ primitiveCalls t = [] :=
  trailing_slash_redirect demoDeps demoOpen demoRoot (mkReq "/docs" "a=b" "") 1
    (directory "/srv/www/docs".toList)
    { Name := "docs".toList, ModTime := 0, IsDir := true }
    (by decide) (by decide) (by decide) (by decide)

/-- C7, as the code has it. When the negotiation fails with an error on a request for
an existing regular file, the error goes through `toResponse`: the one status
written is 404, 403 or 500 (500 with the error logged, for an error that is neither
a not-exist nor a permission error), never 406; no header is added and the
content-writing primitive is not called. -/
theorem negotiation_error_goes_through_toResponse (d : Deps)
    (osOpen : GoString → Res File) (fs : fileSystem) (req : Request) (depth : Nat)
    (file : File) (info : FileInfo) (err : GoError)
    (hdepth : 1 ≤ depth) (hopen : OpensAs osOpen fs req file info)
    (hfile : info.IsDir = false)
    (hneg : d.negotiateContentEncoding req d.contentEncodings = .err err) :
    ∃ t, fileServer.ServeHTTP d osOpen fs depth req = some t ∧
      t = [.osOpen (fileSystem.fullName fs (path.Clean req.Path)),
           .negotiate req d.contentEncodings] ++ toResponse err ++ [.fileClose file] ∧
      statusCodes t = statusCodes (toResponse err) ∧
      (statusCodes t = [404] ∨ statusCodes t = [403] ∨ statusCodes t = [500]) ∧
      (os.IsNotExist err = false → os.IsPermission err = false →
        statusCodes t = [500] ∧ logged t = [err]) ∧
      headerValues "Content-Encoding".toList t = [] ∧ primitiveCalls t = [] := by
  obtain ⟨k, rfl⟩ : ∃ k, depth = k + 1 := ⟨depth - 1, by omega⟩
  obtain ⟨ho, hs⟩ := hopen
  have ht : fileServer.ServeHTTP d osOpen fs (k + 1) req
      = some ([.osOpen (fileSystem.fullName fs (path.Clean req.Path)),
           .negotiate req d.contentEncodings] ++ toResponse err ++ [.fileClose file]) := by
    simp only [fileServer.ServeHTTP, fileServer.serveCall]
    rw [fileSystem.Open_ok ho]
    simp only [Deps.contentEncodings] at hneg
    simp [hs, hfile, hneg, Deps.contentEncodings]
  refine ⟨_, ht, rfl, ?_⟩
  rcases toResponse_cases err with h | h | h
  · have h1 : os.IsNotExist err = true := by
      by_contra hc
      simp [toResponse, hc] at h
      split at h <;> simp [http.StatusForbidden, http.StatusInternalServerError] at h
    simp [h, h1, statusCodes, headerValues, primitiveCalls]
  · have h1 : os.IsNotExist err = true ∨ os.IsPermission err = true := by
      by_contra hc
      simp only [not_or, Bool.not_eq_true] at hc
      rw [toResponse_other hc.1 hc.2] at h
      simp at h
    rcases h1 with h1 | h1 <;>
      simp [h, h1, statusCodes, headerValues, primitiveCalls]
  · simp [h, statusCodes, headerValues, primitiveCalls, logged]

/-- C7, as the code has it, at a concrete input: a header the negotiation cannot parse
on `/index.html` gives 500, logged. -/
theorem negotiation_error_goes_through_toResponse_witness :
    ∃ t, fileServer.ServeHTTP demoDeps demoOpen demoRoot 1
        (mkReq "/index.html" "" "gzip;q=") = some t ∧
      t = [.osOpen "/srv/www/index.html".toList,
           .negotiate (mkReq "/index.html" "" "gzip;q=") demoDeps.contentEncodings]
          ++ toResponse (.other "malformed Accept-Encoding".toList)
          ++ [.fileClose (regularFile "/srv/www/index.html".toList)] ∧
      statusCodes t = statusCodes (toResponse (.other "malformed Accept-Encoding".toList)) ∧
      (statusCodes t = [404] ∨ statusCodes t = [403] ∨ statusCodes t = [500]) ∧
      (os.IsNotExist (.other "malformed Accept-Encoding".toList) = false →
        os.IsPermission (.other "malformed Accept-Encoding".toList) = false →
        statusCodes t = [500] ∧ logged t = [.other "malformed Accept-Encoding".toList]) ∧
      headerValues "Content-Encoding".toList t = [] ∧ primitiveCalls t = [] :=
  negotiation_error_goes_through_toResponse demoDeps demoOpen demoRoot
    (mkReq "/index.html" "" "gzip;q=") 1 (regularFile "/srv/www/index.html".toList)
    { Name := "index.html".toList, ModTime := 0, IsDir := false }
    (.other "malformed Accept-Encoding".toList)
    (by decide) (by decide) (by decide) (by decide)

/-- C7 fails as stated: `/index.html` is an existing regular file, the negotiation
returns an error for the header `gzip;q=`, and the status written is 500 (with the
error logged), not 406. -/
theorem malformed_accept_encoding_is_500_not_406 :
    OpensAs demoOpen demoRoot (mkReq "/index.html" "" "gzip;q=")
        (regularFile "/srv/www/index.html".toList)
        { Name := "index.html".toList, ModTime := 0, IsDir := false } ∧
      demoDeps.negotiateContentEncoding (mkReq "/index.html" "" "gzip;q=")
          demoDeps.contentEncodings = .err (.other "malformed Accept-Encoding".toList) ∧
      fileServer.ServeHTTP demoDeps demoOpen demoRoot 2 (mkReq "/index.html" "" "gzip;q=")
        = some [.osOpen "/srv/www/index.html".toList,
            .negotiate (mkReq "/index.html" "" "gzip;q=") demoDeps.contentEncodings,
            .logError (.other "malformed Accept-Encoding".toList),
            .writeHeader .raw 500,
            .fileClose (regularFile "/srv/www/index.html".toList)] ∧
      ¬ (∃ t, fileServer.ServeHTTP demoDeps demoOpen demoRoot 2
            (mkReq "/index.html" "" "gzip;q=") = some t ∧ statusCodes t = [406]) := by
  refine ⟨by decide, by decide, by decide, ?_⟩
  rintro ⟨t, ht, hs⟩
  have h : fileServer.ServeHTTP demoDeps demoOpen demoRoot 2
      (mkReq "/index.html" "" "gzip;q=")
        = some [.osOpen "/srv/www/index.html".toList,
            .negotiate (mkReq "/index.html" "" "gzip;q=") demoDeps.contentEncodings,
            .logError (.other "malformed Accept-Encoding".toList),
            .writeHeader .raw 500,
            .fileClose (regularFile "/srv/www/index.html".toList)] := by decide
  rw [h] at ht
  cases ht
  revert hs
  decide

/-- C8. When the negotiation returns no encoding and no error on a request for an
existing regular file, the answer is 406 and nothing else: no `Content-Encoding`
header is added, no encoder is built and the content-writing primitive is not
called. -/
theorem no_acceptable_encoding_is_406 (d : Deps) (osOpen : GoString → Res File)
    (fs : fileSystem) (req : Request) (depth : Nat) (file : File) (info : FileInfo)
    (hdepth : 1 ≤ depth) (hopen : OpensAs osOpen fs req file info)
    (hfile : info.IsDir = false)
    (hneg : d.negotiateContentEncoding req d.contentEncodings = .ok []) :
    ∃ t, fileServer.ServeHTTP d osOpen fs depth req = some t ∧
      t = [.osOpen (fileSystem.fullName fs (path.Clean req.Path)),
           .negotiate req d.contentEncodings, .writeHeader .raw 406, .fileClose file] ∧
      statusCodes t = [406] ∧ headerValues "Content-Encoding".toList t = [] ∧
      encodersBuilt t = [] ∧ primitiveCalls t = [] := by
  obtain ⟨k, rfl⟩ : ∃ k, depth = k + 1 := ⟨depth - 1, by omega⟩
  obtain ⟨ho, hs⟩ := hopen
  have ht : fileServer.ServeHTTP d osOpen fs (k + 1) req
      = some [.osOpen (fileSystem.fullName fs (path.Clean req.Path)),
           .negotiate req d.contentEncodings, .writeHeader .raw 406, .fileClose file] := by
    simp only [fileServer.ServeHTTP, fileServer.serveCall]
    rw [fileSystem.Open_ok ho]
    simp only [Deps.contentEncodings] at hneg
    simp [hs, hfile, hneg, Deps.contentEncodings, http.StatusNotAcceptable]
  refine ⟨_, ht, rfl, ?_⟩
  simp [statusCodes, headerValues, encodersBuilt, primitiveCalls]

/-- C8, at a concrete input: `/index.html` with `Accept-Encoding: zstd, identity;q=0`. -/
theorem no_acceptable_encoding_is_406_witness :
    ∃ t, fileServer.ServeHTTP demoDeps demoOpen demoRoot 1
        (mkReq "/index.html" "" "zstd, identity;q=0") = some t ∧
      t = [.osOpen "/srv/www/index.html".toList,
           .negotiate (mkReq "/index.html" "" "zstd, identity;q=0") demoDeps.contentEncodings,
           .writeHeader .raw 406, .fileClose (regularFile "/srv/www/index.html".toList)] ∧
      statusCodes t = [406] ∧ headerValues "Content-Encoding".toList t = [] ∧
      encodersBuilt t = [] ∧ primitiveCalls t = [] :=
  no_acceptable_encoding_is_406 demoDeps demoOpen demoRoot
    (mkReq "/index.html" "" "zstd, identity;q=0") 1
    (regularFile "/srv/www/index.html".toList)
    { Name := "index.html".toList, ModTime := 0, IsDir := false }
    (by decide) (by decide) (by decide) (by decide)

/-- C9. When the negotiation chooses an encoding `e` that is neither empty nor identity
on a request for an existing regular file: if the encoder is built, the run is
exactly open, negotiate, build the encoder, add `Content-Encoding: e`, call the
content-writing primitive once with the encoder as writer, close the encoder, close
the file; if building the encoder fails with `err`, the run answers through
`toResponse err`, adds no `Content-Encoding` header and does not call the
primitive. -/
theorem compressed_response_path (d : Deps) (osOpen : GoString → Res File)
    (fs : fileSystem) (req : Request) (depth : Nat) (file : File) (info : FileInfo)
    (e : GoString)
    (hdepth : 1 ≤ depth) (hopen : OpensAs osOpen fs req file info)
    (hfile : info.IsDir = false)
    (hneg : d.negotiateContentEncoding req d.contentEncodings = .ok e)
    (hne : e ≠ []) (hid : e ≠ d.encodingIdentity) :
    (d.newResponseWriterEncoder e = .ok () →
      ∃ t, fileServer.ServeHTTP d osOpen fs depth req = some t ∧
        t = [.osOpen (fileSystem.fullName fs (path.Clean req.Path)),
             .negotiate req d.contentEncodings, .newEncoder e,
             .headerAdd (.encoder e) "Content-Encoding".toList e,
             .serveContent (.encoder e) req info.Name info.ModTime file,
             .encoderClose e, .fileClose file] ∧
        headerValues "Content-Encoding".toList t = [e] ∧
        primitiveCalls t = [.serveContent (.encoder e) req info.Name info.ModTime file]) ∧
    (∀ err, d.newResponseWriterEncoder e = .err err →
      ∃ t, fileServer.ServeHTTP d osOpen fs depth req = some t ∧
        t = [.osOpen (fileSystem.fullName fs (path.Clean req.Path)),
             .negotiate req d.contentEncodings, .newEncoder e] ++ toResponse err
            ++ [.fileClose file] ∧
        headerValues "Content-Encoding".toList t = [] ∧ primitiveCalls t = []) := by
  obtain ⟨k, rfl⟩ : ∃ k, depth = k + 1 := ⟨depth - 1, by omega⟩
  obtain ⟨ho, hs⟩ := hopen
  simp only [Deps.contentEncodings] at hneg
  constructor
  · intro henc
    have ht : fileServer.ServeHTTP d osOpen fs (k + 1) req
        = some [.osOpen (fileSystem.fullName fs (path.Clean req.Path)),
             .negotiate req d.contentEncodings, .newEncoder e,
             .headerAdd (.encoder e) "Content-Encoding".toList e,
             .serveContent (.encoder e) req info.Name info.ModTime file,
             .encoderClose e, .fileClose file] := by
      simp only [fileServer.ServeHTTP, fileServer.serveCall]
      rw [fileSystem.Open_ok ho]
      simp [hs, hfile, hneg, hne, hid, henc, Deps.contentEncodings]
    refine ⟨_, ht, rfl, ?_⟩
    simp [headerValues, primitiveCalls]
  · intro err henc
    have ht : fileServer.ServeHTTP d osOpen fs (k + 1) req
        = some ([.osOpen (fileSystem.fullName fs (path.Clean req.Path)),
             .negotiate req d.contentEncodings, .newEncoder e] ++ toResponse err
            ++ [.fileClose file]) := by
      simp only [fileServer.ServeHTTP, fileServer.serveCall]
      rw [fileSystem.Open_ok ho]
      simp [hs, hfile, hneg, hne, hid, henc, Deps.contentEncodings]
    refine ⟨_, ht, rfl, ?_⟩
    rcases toResponse_cases err with h | h | h <;> simp [h, headerValues, primitiveCalls]

/-- C9, at a concrete input: `/index.html` with `Accept-Encoding: gzip` is served
through the gzip encoder. -/
theorem compressed_response_path_witness :
    ∃ t, fileServer.ServeHTTP demoDeps demoOpen demoRoot 1
        (mkReq "/index.html" "" "gzip") = some t ∧
      t = [.osOpen "/srv/www/index.html".toList,
           .negotiate (mkReq "/index.html" "" "gzip") demoDeps.contentEncodings,
           .newEncoder "gzip".toList,
           .headerAdd (.encoder "gzip".toList) "Content-Encoding".toList "gzip".toList,
           .serveContent (.encoder "gzip".toList) (mkReq "/index.html" "" "gzip")
             "index.html".toList 0 (regularFile "/srv/www/index.html".toList),
           .encoderClose "gzip".toList,
           .fileClose (regularFile "/srv/www/index.html".toList)] ∧
      headerValues "Content-Encoding".toList t = ["gzip".toList] ∧
      primitiveCalls t = [.serveContent (.encoder "gzip".toList)
        (mkReq "/index.html" "" "gzip") "index.html".toList 0
        (regularFile "/srv/www/index.html".toList)] :=
  (compressed_response_path demoDeps demoOpen demoRoot (mkReq "/index.html" "" "gzip") 1
    (regularFile "/srv/www/index.html".toList)
    { Name := "index.html".toList, ModTime := 0, IsDir := false } "gzip".toList
    (by decide) (by decide) (by decide) (by decide) (by decide) (by decide)).1 (by decide)

/-! ## The index recursion -/

theorem strings.hasSuffix_slash_append_index (p : GoString) :
    strings.HasSuffix (p ++ ['/'] ++ indexPageName) ['/'] = false := by
  have h : p ++ ['/'] ++ indexPageName = (p ++ "/index.htm".toList) ++ ['l'] := by
    simp [indexPageName]
  rw [h]
  unfold strings.HasSuffix
  have hd : ((p ++ "/index.htm".toList) ++ ['l']).drop
      (((p ++ "/index.htm".toList) ++ ['l']).length - ['/'].length) = ['l'] := by
    apply List.drop_left'
    simp
  rw [hd]
  simp

theorem fileServer.serveCall_of_no_slash (d : Deps) (osOpen : GoString → Res File)
    (fs : fileSystem) (req : Request) (hraw : strings.HasSuffix req.Path ['/'] = false)
    (self : Request → Option (List Event)) :
    ∃ t, fileServer.serveCall d osOpen fs self req = some t ∧
      fileServer.serveCall d osOpen fs (fun _ => none) req = some t := by
  simp only [fileServer.serveCall, hraw]
  repeat' split
  all_goals first | exact ⟨_, rfl, rfl⟩ | simp_all

theorem fileServer.serveCall_of_self (d : Deps) (osOpen : GoString → Res File)
    (fs : fileSystem) (req : Request) (self self1 : Request → Option (List Event))
    (t1 : List Event)
    (h : self { req with Path := path.Clean req.Path ++ ['/'] ++ indexPageName } = some t1)
    (h1 : self1 { req with Path := path.Clean req.Path ++ ['/'] ++ indexPageName } = some t1) :
    ∃ t, fileServer.serveCall d osOpen fs self req = some t ∧
      fileServer.serveCall d osOpen fs self1 req = some t := by
  simp only [fileServer.serveCall, h, h1]
  repeat' split
  all_goals exact ⟨_, rfl, rfl⟩

theorem fileServer.ServeHTTP_total_of_no_slash (d : Deps) (osOpen : GoString → Res File)
    (fs : fileSystem) (req : Request) (hraw : strings.HasSuffix req.Path ['/'] = false)
    (k : Nat) :
    ∃ t, fileServer.ServeHTTP d osOpen fs (k + 1) req = some t ∧
      fileServer.ServeHTTP d osOpen fs 1 req = some t := by
  obtain ⟨t, h1, h2⟩ := fileServer.serveCall_of_no_slash d osOpen fs req hraw
    (fileServer.ServeHTTP d osOpen fs k)
  obtain ⟨t0, h3, h4⟩ := fileServer.serveCall_of_no_slash d osOpen fs req hraw
    (fileServer.ServeHTTP d osOpen fs 0)
  refine ⟨t, h1, ?_⟩
  show fileServer.serveCall d osOpen fs (fileServer.ServeHTTP d osOpen fs 0) req = some t
  rw [h3, ← h4, h2]

theorem fileServer.ServeHTTP_total (d : Deps) (osOpen : GoString → Res File)
    (fs : fileSystem) (req : Request) (k : Nat) :
    ∃ t, fileServer.ServeHTTP d osOpen fs (k + 2) req = some t ∧
      fileServer.ServeHTTP d osOpen fs 2 req = some t := by
  obtain ⟨t1, h1, h2⟩ := fileServer.ServeHTTP_total_of_no_slash d osOpen fs
    { req with Path := path.Clean req.Path ++ ['/'] ++ indexPageName }
    (strings.hasSuffix_slash_append_index _) k
  exact fileServer.serveCall_of_self d osOpen fs req _ _ t1 h1 h2

theorem statusCodes_append (a b : List Event) :
    statusCodes (a ++ b) = statusCodes a ++ statusCodes b := by
  induction a with
  | nil => rfl
  | cons e a ih => cases e <;> simp [statusCodes, ih]

theorem headerValues_append (key : GoString) (a b : List Event) :
    headerValues key (a ++ b) = headerValues key a ++ headerValues key b := by
  induction a with
  | nil => rfl
  | cons e a ih =>
    cases e <;> simp [headerValues, ih]
    split <;> simp

theorem primitiveCalls_append (a b : List Event) :
    primitiveCalls (a ++ b) = primitiveCalls a ++ primitiveCalls b := by
  induction a with
  | nil => rfl
  | cons e a ih => cases e <;> simp [primitiveCalls, ih]

theorem negotiations_append (a b : List Event) :
    negotiations (a ++ b) = negotiations a ++ negotiations b := by
  induction a with
  | nil => rfl
  | cons e a ih => cases e <;> simp [negotiations, ih]

theorem encodersBuilt_append (a b : List Event) :
    encodersBuilt (a ++ b) = encodersBuilt a ++ encodersBuilt b := by
  induction a with
  | nil => rfl
  | cons e a ih => cases e <;> simp [encodersBuilt, ih]

theorem logged_append (a b : List Event) :
    logged (a ++ b) = logged a ++ logged b := by
  induction a with
  | nil => rfl
  | cons e a ih => cases e <;> simp [logged, ih]

theorem primitiveArgs_append (a b : List Event) :
    primitiveArgs (a ++ b) = primitiveArgs a ++ primitiveArgs b := by
  induction a with
  | nil => rfl
  | cons e a ih => cases e <;> simp [primitiveArgs, ih]

theorem toResponse_observations (err : GoError) :
    primitiveArgs (toResponse err) = [] ∧ encodersBuilt (toResponse err) = [] ∧
      ∀ key, headerValues key (toResponse err) = [] := by
  rcases toResponse_cases err with h | h | h <;>
    simp [h, primitiveArgs, encodersBuilt, headerValues]

theorem fileServer.serveCall_respelled (d : Deps) (osOpen : GoString → Res File)
    (fs : fileSystem) (r1 r2 : Request) (self1 self2 : Request → Option (List Event))
    (hclean : path.Clean r1.Path = path.Clean r2.Path)
    (hnd : ∀ file info, OpensAs osOpen fs r1 file info → info.IsDir = false)
    (hneg : d.negotiateContentEncoding r1 d.contentEncodings
      = d.negotiateContentEncoding r2 d.contentEncodings) :
    ∃ t1 t2, fileServer.serveCall d osOpen fs self1 r1 = some t1 ∧
      fileServer.serveCall d osOpen fs self2 r2 = some t2 ∧
      statusCodes t1 = statusCodes t2 ∧ (∀ key, headerValues key t1 = headerValues key t2) ∧
      encodersBuilt t1 = encodersBuilt t2 ∧ logged t1 = logged t2 ∧
      primitiveArgs t1 = primitiveArgs t2 := by
  simp only [Deps.contentEncodings] at hneg
  simp only [fileServer.serveCall, ← hclean, ← hneg]
  cases ho : fileSystem.Open osOpen fs (path.Clean r1.Path) with
  | mk t r =>
    cases r with
    | err e => exact ⟨_, _, rfl, rfl, rfl, fun _ => rfl, rfl, rfl, rfl⟩
    | ok file =>
      dsimp only
      cases hs : file.Stat with
      | err e => exact ⟨_, _, rfl, rfl, rfl, fun _ => rfl, rfl, rfl, rfl⟩
      | ok info =>
        dsimp only
        have hdir : info.IsDir = false := hnd file info ⟨by rw [ho], hs⟩
        simp only [hdir, Bool.false_eq_true, if_false]
        cases d.negotiateContentEncoding r1
            [d.encodingBrotli, d.encodingGzip, d.encodingDeflate] with
        | err e =>
          dsimp only
          refine ⟨_, _, rfl, rfl, ?_, ?_, ?_, ?_, ?_⟩ <;>
            simp [statusCodes_append, headerValues_append, encodersBuilt_append, logged_append,
              primitiveArgs_append, statusCodes, headerValues, encodersBuilt, logged,
              primitiveArgs]
        | ok ce =>
          dsimp only
          by_cases h1 : ce = []
          · simp only [h1, if_true]
            refine ⟨_, _, rfl, rfl, ?_, ?_, ?_, ?_, ?_⟩ <;>
              simp [statusCodes_append, headerValues_append, encodersBuilt_append,
                logged_append, primitiveArgs_append, statusCodes, headerValues, encodersBuilt,
                logged, primitiveArgs]
          · by_cases h2 : ce = d.encodingIdentity
            · simp only [if_neg h1]
              simp only [h2, ne_eq, not_true_eq_false, if_false]
              refine ⟨_, _, rfl, rfl, ?_, ?_, ?_, ?_, ?_⟩ <;>
                simp [statusCodes_append, headerValues_append, encodersBuilt_append,
                  logged_append, primitiveArgs_append, statusCodes, headerValues,
                  encodersBuilt, logged, primitiveArgs]
            · simp only [h1, if_false, h2, ne_eq, not_false_eq_true, if_true]
              cases d.newResponseWriterEncoder ce with
              | err e =>
                dsimp only
                refine ⟨_, _, rfl, rfl, ?_, ?_, ?_, ?_, ?_⟩ <;>
                  simp [statusCodes_append, headerValues_append, encodersBuilt_append,
                    logged_append, primitiveArgs_append, statusCodes, headerValues,
                    encodersBuilt, logged, primitiveArgs]
              | ok u =>
                dsimp only
                refine ⟨_, _, rfl, rfl, ?_, ?_, ?_, ?_, ?_⟩ <;>
                  simp [statusCodes_append, headerValues_append, encodersBuilt_append,
                    logged_append, primitiveArgs_append, statusCodes, headerValues,
                    encodersBuilt, logged, primitiveArgs]

/-- C10. `ServeHTTP` returns on every request and file system, and one nested call is
all it ever needs: every depth bound of 2 or more gives the same run.  The rewritten
path `<cleaned path>/index.html` does not end with `/`, so the nested call returns
within depth 1, that is without calling `ServeHTTP` again; and when `index.html`
opens as a directory the nested call is the 301 redirect to
`<cleaned path>/index.html/` followed by the query. -/
theorem serveHTTP_returns_with_one_nested_call (d : Deps) (osOpen : GoString → Res File)
    (fs : fileSystem) (req : Request) :
    (∃ t, ∀ depth, 2 ≤ depth → fileServer.ServeHTTP d osOpen fs depth req = some t) ∧
    strings.HasSuffix (path.Clean req.Path ++ ['/'] ++ indexPageName) ['/'] = false ∧
    (∃ t, ∀ depth, 1 ≤ depth → fileServer.ServeHTTP d osOpen fs depth
        { req with Path := path.Clean req.Path ++ ['/'] ++ indexPageName } = some t) ∧
    (∀ file info,
      OpensAs osOpen fs { req with Path := path.Clean req.Path ++ ['/'] ++ indexPageName }
        file info →
      info.IsDir = true →
      fileServer.ServeHTTP d osOpen fs 1
          { req with Path := path.Clean req.Path ++ ['/'] ++ indexPageName }
        = some [.osOpen (fileSystem.fullName fs
              (path.Clean (path.Clean req.Path ++ ['/'] ++ indexPageName))),
            .headerAdd .raw "Location".toList
              (path.Clean req.Path ++ ['/'] ++ indexPageName ++ ['/']
                ++ (if req.RawQuery = [] then [] else '?' :: req.RawQuery)),
            .writeHeader .raw 301, .fileClose file]) := by
  refine ⟨?_, strings.hasSuffix_slash_append_index _, ?_, ?_⟩
  · obtain ⟨t, -, h2⟩ := fileServer.ServeHTTP_total d osOpen fs req 0
    refine ⟨t, fun depth hdepth => ?_⟩
    obtain ⟨k, rfl⟩ : ∃ k, depth = k + 2 := ⟨depth - 2, by omega⟩
    obtain ⟨t1, h3, h4⟩ := fileServer.ServeHTTP_total d osOpen fs req k
    rw [h3, ← h4, h2]
  · obtain ⟨t, -, h2⟩ := fileServer.ServeHTTP_total_of_no_slash d osOpen fs
      { req with Path := path.Clean req.Path ++ ['/'] ++ indexPageName }
      (strings.hasSuffix_slash_append_index _) 0
    refine ⟨t, fun depth hdepth => ?_⟩
    obtain ⟨k, rfl⟩ : ∃ k, depth = k + 1 := ⟨depth - 1, by omega⟩
    obtain ⟨t1, h3, h4⟩ := fileServer.ServeHTTP_total_of_no_slash d osOpen fs
      { req with Path := path.Clean req.Path ++ ['/'] ++ indexPageName }
      (strings.hasSuffix_slash_append_index _) k
    rw [h3, ← h4, h2]
  · intro file info hopen hdir
    rw [fileServer.ServeHTTP_redirect d osOpen fs
      { req with Path := path.Clean req.Path ++ ['/'] ++ indexPageName } 0 file info
      hopen hdir (strings.hasSuffix_slash_append_index _)]

/-- C10, at a concrete input: under `/docs/` the entry `index.html` is a directory; the
nested call on `/docs/index.html` is the redirect to `/docs/index.html/?a=b`. -/
theorem serveHTTP_returns_with_one_nested_call_witness :
    fileServer.ServeHTTP demoDeps demoOpen demoRoot 1
        { mkReq "/docs/" "a=b" "" with
          Path := path.Clean (mkReq "/docs/" "a=b" "").Path ++ ['/'] ++ indexPageName }
      = some [.osOpen (fileSystem.fullName demoRoot
            (path.Clean (path.Clean (mkReq "/docs/" "a=b" "").Path ++ ['/'] ++ indexPageName))),
          .headerAdd .raw "Location".toList
            (path.Clean (mkReq "/docs/" "a=b" "").Path ++ ['/'] ++ indexPageName ++ ['/']
              ++ (if (mkReq "/docs/" "a=b" "").RawQuery = [] then []
                  else '?' :: (mkReq "/docs/" "a=b" "").RawQuery)),
          .writeHeader .raw 301,
          .fileClose (directory "/srv/www/docs/index.html".toList)] :=
  (serveHTTP_returns_with_one_nested_call demoDeps demoOpen demoRoot
    (mkReq "/docs/" "a=b" "")).2.2.2 (directory "/srv/www/docs/index.html".toList)
    { Name := "index.html".toList, ModTime := 0, IsDir := true } (by decide) (by decide)

theorem fileServer.ServeHTTP_index_run (d : Deps) (osOpen : GoString → Res File)
    (fs : fileSystem) (req : Request) (depth : Nat) (file : File) (info : FileInfo)
    (hdepth : 2 ≤ depth) (hopen : OpensAs osOpen fs req file info)
    (hdir : info.IsDir = true) (hraw : strings.HasSuffix req.Path ['/'] = true) :
    ∃ t ti, fileServer.ServeHTTP d osOpen fs depth req = some t ∧
      fileServer.ServeHTTP d osOpen fs depth
        { req with Path := path.Clean req.Path ++ ['/'] ++ indexPageName } = some ti ∧
      t = [.osOpen (fileSystem.fullName fs (path.Clean req.Path))] ++ ti
            ++ [.fileClose file] ∧
      statusCodes t = statusCodes ti ∧
      (∀ key, headerValues key t = headerValues key ti) ∧
      negotiations t = negotiations ti ∧
      encodersBuilt t = encodersBuilt ti ∧
      primitiveCalls t = primitiveCalls ti ∧
      logged t = logged ti ∧
      (∀ q, path.Clean q = path.Clean (path.Clean req.Path ++ ['/'] ++ indexPageName) →
        (∀ f i, OpensAs osOpen fs { req with Path := q } f i → i.IsDir = false) →
        d.negotiateContentEncoding { req with Path := q } d.contentEncodings
          = d.negotiateContentEncoding
              { req with Path := path.Clean req.Path ++ ['/'] ++ indexPageName }
              d.contentEncodings →
        ∃ tq, fileServer.ServeHTTP d osOpen fs depth { req with Path := q } = some tq ∧
          statusCodes t = statusCodes tq ∧
          (∀ key, headerValues key t = headerValues key tq) ∧
          encodersBuilt t = encodersBuilt tq ∧
          primitiveArgs t = primitiveArgs tq ∧
          logged t = logged tq) := by
  obtain ⟨k, rfl⟩ : ∃ k, depth = k + 2 := ⟨depth - 2, by omega⟩
  obtain ⟨ho, hs⟩ := hopen
  obtain ⟨ti, h1, -⟩ := fileServer.ServeHTTP_total_of_no_slash d osOpen fs
    { req with Path := path.Clean req.Path ++ ['/'] ++ indexPageName }
    (strings.hasSuffix_slash_append_index _) k
  obtain ⟨ti1, h2, h3⟩ := fileServer.ServeHTTP_total_of_no_slash d osOpen fs
    { req with Path := path.Clean req.Path ++ ['/'] ++ indexPageName }
    (strings.hasSuffix_slash_append_index _) (k + 1)
  have h4 : ti1 = ti := by
    obtain ⟨ti2, h5, h6⟩ := fileServer.ServeHTTP_total_of_no_slash d osOpen fs
      { req with Path := path.Clean req.Path ++ ['/'] ++ indexPageName }
      (strings.hasSuffix_slash_append_index _) k
    rw [h1] at h5
    rw [h3] at h6
    cases h5
    cases h6
    rfl
  subst h4
  have ht : fileServer.ServeHTTP d osOpen fs (k + 2) req
      = some ([.osOpen (fileSystem.fullName fs (path.Clean req.Path))] ++ ti1
            ++ [.fileClose file]) := by
    rw [fileServer.ServeHTTP]
    simp only [fileServer.serveCall]
    rw [fileSystem.Open_ok ho]
    simp only [hs, hdir, hraw, h1]
    simp
  have e1 : statusCodes ([.osOpen (fileSystem.fullName fs (path.Clean req.Path))] ++ ti1
      ++ [.fileClose file]) = statusCodes ti1 := by
    simp [statusCodes_append, statusCodes]
  have e2 : ∀ key, headerValues key ([.osOpen (fileSystem.fullName fs (path.Clean req.Path))]
      ++ ti1 ++ [.fileClose file]) = headerValues key ti1 := by
    intro key
    simp [headerValues_append, headerValues]
  have e3 : encodersBuilt ([.osOpen (fileSystem.fullName fs (path.Clean req.Path))] ++ ti1
      ++ [.fileClose file]) = encodersBuilt ti1 := by
    simp [encodersBuilt_append, encodersBuilt]
  have e4 : logged ([.osOpen (fileSystem.fullName fs (path.Clean req.Path))] ++ ti1
      ++ [.fileClose file]) = logged ti1 := by
    simp [logged_append, logged]
  have e5 : primitiveArgs ([.osOpen (fileSystem.fullName fs (path.Clean req.Path))] ++ ti1
      ++ [.fileClose file]) = primitiveArgs ti1 := by
    simp [primitiveArgs_append, primitiveArgs]
  refine ⟨_, ti1, ht, h2, rfl, e1, e2, ?_, e3, ?_, e4, ?_⟩
  · simp [negotiations_append, negotiations]
  · simp [primitiveCalls_append, primitiveCalls]
  · intro q hq hnd hneg
    obtain ⟨t1, t2, hq1, hq2, g1, g2, g3, g4, g5⟩ := fileServer.serveCall_respelled d osOpen fs
      { req with Path := q }
      { req with Path := path.Clean req.Path ++ ['/'] ++ indexPageName }
      (fileServer.ServeHTTP d osOpen fs (k + 1)) (fileServer.ServeHTTP d osOpen fs (k + 1))
      hq hnd hneg
    have h5 : fileServer.ServeHTTP d osOpen fs (k + 2)
        { req with Path := path.Clean req.Path ++ ['/'] ++ indexPageName } = some t2 := hq2
    rw [h2] at h5
    cases h5
    refine ⟨t1, hq1, ?_, ?_, ?_, ?_, ?_⟩
    · rw [e1, g1]
    · intro key
      rw [e2, g2]
    · rw [e3, g3]
    · rw [e5, g5]
    · rw [e4, g4]

/-- C3, as the code has it. When the raw path ends with `/`, the name joined from the
root and the cleaned path has a base name that does not begin with `.`, and that
name opens as a directory (`os.Open` and `Stat` succeed and report a directory), the
run is the run on the request that differs only in its path,
`<cleaned path>/index.html`, between the opening and the closing of the directory;
so the two runs write the same status codes, add the same header values, negotiate
alike, build the same encoders and make the same call of the content-writing
primitive (same writer, request, name, time and file).  The same status codes,
header values, encoders and writer and file of the primitive are obtained from any
other spelling `q` of the index path (one with the same cleaned form, such as
`/index.html` for the root directory), provided `index.html` does not open as a
directory and the negotiation does not tell the two requests apart. -/
theorem index_request_equivalence (d : Deps) (osOpen : GoString → Res File)
    (fs : fileSystem) (req : Request) (depth : Nat) (file : File) (info : FileInfo)
    (hdepth : 2 ≤ depth) (hraw : strings.HasSuffix req.Path ['/'] = true)
    (hname : strings.HasPrefix
      (filepath.Base (fileSystem.fullName fs (path.Clean req.Path))) ['.'] = false)
    (hopen : osOpen (fileSystem.fullName fs (path.Clean req.Path)) = .ok file)
    (hstat : file.Stat = .ok info) (hdir : info.IsDir = true) :
    ∃ t ti, fileServer.ServeHTTP d osOpen fs depth req = some t ∧
      fileServer.ServeHTTP d osOpen fs depth
        { req with Path := path.Clean req.Path ++ ['/'] ++ indexPageName } = some ti ∧
      t = [.osOpen (fileSystem.fullName fs (path.Clean req.Path))] ++ ti
            ++ [.fileClose file] ∧
      statusCodes t = statusCodes ti ∧
      (∀ key, headerValues key t = headerValues key ti) ∧
      negotiations t = negotiations ti ∧
      encodersBuilt t = encodersBuilt ti ∧
      primitiveCalls t = primitiveCalls ti ∧
      logged t = logged ti ∧
      (∀ q, path.Clean q = path.Clean (path.Clean req.Path ++ ['/'] ++ indexPageName) →
        (∀ f i, OpensAs osOpen fs { req with Path := q } f i → i.IsDir = false) →
        d.negotiateContentEncoding { req with Path := q } d.contentEncodings
          = d.negotiateContentEncoding
              { req with Path := path.Clean req.Path ++ ['/'] ++ indexPageName }
              d.contentEncodings →
        ∃ tq, fileServer.ServeHTTP d osOpen fs depth { req with Path := q } = some tq ∧
          statusCodes t = statusCodes tq ∧
          (∀ key, headerValues key t = headerValues key tq) ∧
          encodersBuilt t = encodersBuilt tq ∧
          primitiveArgs t = primitiveArgs tq ∧
          logged t = logged tq) :=
  fileServer.ServeHTTP_index_run d osOpen fs req depth file info hdepth
    (OpensAs_of hname hopen hstat) hdir hraw

/-- C3, as the code has it, at a concrete input: `/` with `Accept-Encoding: gzip`
against the index page of the root `/srv/www`. -/
theorem index_request_equivalence_witness :
    ∃ t ti, fileServer.ServeHTTP demoDeps demoOpen demoRoot 2 (mkReq "/" "" "gzip") = some t ∧
      fileServer.ServeHTTP demoDeps demoOpen demoRoot 2
        { mkReq "/" "" "gzip" with
          Path := path.Clean (mkReq "/" "" "gzip").Path ++ ['/'] ++ indexPageName } = some ti ∧
      t = [.osOpen (fileSystem.fullName demoRoot (path.Clean (mkReq "/" "" "gzip").Path))]
            ++ ti ++ [.fileClose (directory "/srv/www".toList)] ∧
      statusCodes t = statusCodes ti ∧
      (∀ key, headerValues key t = headerValues key ti) ∧
      primitiveCalls t = primitiveCalls ti :=
  let ⟨t, ti, h1, h2, h3, h4, h5, _, _, h6, _⟩ :=
    index_request_equivalence demoDeps demoOpen demoRoot (mkReq "/" "" "gzip") 2
      (directory "/srv/www".toList) { Name := "www".toList, ModTime := 0, IsDir := true }
      (by decide) (by decide) (by decide) (by decide) (by decide) (by decide)
  ⟨t, ti, h1, h2, h3, h4, h5, h6⟩

/-- C3 fails as stated: under the root `/srv/www` the URL path `/.well-known/` ends
with `/` and names a directory that holds `index.html`, yet the final segment of
the joined name begins with `.`, so `fileSystem.Open` rejects it and the answer is
404, while the request for `/.well-known/index.html` is served. -/
theorem hidden_directory_index_differs :
    strings.HasSuffix (mkReq "/.well-known/" "" "").Path ['/'] = true ∧
    hiddenDirOpen (fileSystem.fullName demoRoot (path.Clean (mkReq "/.well-known/" "" "").Path))
      = .ok (directory "/srv/www/.well-known".toList) ∧
    hiddenDirOpen "/srv/www/.well-known/index.html".toList
      = .ok (regularFile "/srv/www/.well-known/index.html".toList) ∧
    path.Clean (mkReq "/.well-known/" "" "").Path ++ ['/'] ++ indexPageName
      = "/.well-known/index.html".toList ∧
    fileServer.ServeHTTP demoDeps hiddenDirOpen demoRoot 2 (mkReq "/.well-known/" "" "")
      = some [.writeHeader .raw 404] ∧
    fileServer.ServeHTTP demoDeps hiddenDirOpen demoRoot 2
        (mkReq "/.well-known/index.html" "" "")
      = some [.osOpen "/srv/www/.well-known/index.html".toList,
          .negotiate (mkReq "/.well-known/index.html" "" "") demoDeps.contentEncodings,
          .headerAdd .raw "Content-Encoding".toList "identity".toList,
          .serveContent .raw (mkReq "/.well-known/index.html" "" "") "index.html".toList 0
            (regularFile "/srv/www/.well-known/index.html".toList),
          .fileClose (regularFile "/srv/www/.well-known/index.html".toList)] := by
  decide

/-- A root whose own name begins with `.`: with the root `.` the URL path `/` joins to
`.`, which `fileSystem.Open` takes for a hidden name, so the root directory is
answered by 404 although `index.html` in it is served under `/index.html`. -/
theorem dot_named_root_hides_the_root_directory :
    fileSystem.fullName ".".toList (path.Clean (mkReq "/" "" "").Path) = ".".toList ∧
    workDirOpen ".".toList = .ok (directory ".".toList) ∧
    fileServer.ServeHTTP demoDeps workDirOpen ".".toList 2 (mkReq "/" "" "")
      = some [.writeHeader .raw 404] ∧
    fileServer.ServeHTTP demoDeps workDirOpen ".".toList 2 (mkReq "/index.html" "" "")
      = some [.osOpen "index.html".toList,
          .negotiate (mkReq "/index.html" "" "") demoDeps.contentEncodings,
          .headerAdd .raw "Content-Encoding".toList "identity".toList,
          .serveContent .raw (mkReq "/index.html" "" "") "index.html".toList 0
            (regularFile "index.html".toList),
          .fileClose (regularFile "index.html".toList)] := by
  decide

/-- C2, as the code has it. When the final segment of the cleaned URL path (what
`Base` returns on it) begins with `.` and is neither `.` nor `..`, then for every
root and every file system `fileSystem.Open` returns `os.ErrNotExist` without
calling `os.Open`, and `ServeHTTP` writes the status 404 and does nothing else: no
`Location` or `Content-Encoding` header, no call of the content-writing primitive. -/
theorem hidden_file_is_not_found (d : Deps) (osOpen : GoString → Res File)
    (fs : fileSystem) (req : Request) (depth : Nat) (hdepth : 1 ≤ depth)
    (hhidden : strings.HasPrefix (filepath.Base (path.Clean req.Path)) ['.'] = true)
    (hd : filepath.Base (path.Clean req.Path) ≠ ['.'])
    (hdd : filepath.Base (path.Clean req.Path) ≠ ['.', '.']) :
    fileSystem.Open osOpen fs (path.Clean req.Path) = ([], .err .ErrNotExist) ∧
    ∃ t, fileServer.ServeHTTP d osOpen fs depth req = some t ∧
      t = [.writeHeader .raw 404] ∧ opened t = [] ∧ statusCodes t = [404] ∧
      headerValues "Location".toList t = [] ∧
      headerValues "Content-Encoding".toList t = [] ∧ primitiveCalls t = [] := by
  obtain ⟨k, rfl⟩ : ∃ k, depth = k + 1 := ⟨depth - 1, by omega⟩
  have hb := fileSystem.fullName_base fs (path.Clean req.Path) _ rfl
    ((strings.hasPrefix_dot _).mp hhidden) hd hdd
  have ho : fileSystem.Open osOpen fs (path.Clean req.Path) = ([], .err .ErrNotExist) := by
    unfold fileSystem.Open
    simp only [hb, hhidden, if_true]
  have ht : fileServer.ServeHTTP d osOpen fs (k + 1) req = some [.writeHeader .raw 404] := by
    simp only [fileServer.ServeHTTP, fileServer.serveCall]
    rw [ho]
    simp [toResponse, os.IsNotExist, os.underlyingError, http.StatusNotFound]
  refine ⟨ho, _, ht, rfl, ?_⟩
  simp [opened, statusCodes, headerValues, primitiveCalls]

/-- C2, as the code has it, at a concrete input: `/secret/.env` exists as a regular file
under the root and is answered by 404 without being opened. -/
theorem hidden_file_is_not_found_witness :
    demoOpen "/srv/www/secret/.env".toList = .ok (regularFile "/srv/www/secret/.env".toList) ∧
    fileSystem.Open demoOpen demoRoot (path.Clean (mkReq "/secret/.env" "" "").Path)
      = ([], .err .ErrNotExist) ∧
    ∃ t, fileServer.ServeHTTP demoDeps demoOpen demoRoot 1 (mkReq "/secret/.env" "" "") = some t ∧
      t = [.writeHeader .raw 404] ∧ opened t = [] ∧ statusCodes t = [404] ∧
      headerValues "Location".toList t = [] ∧
      headerValues "Content-Encoding".toList t = [] ∧ primitiveCalls t = [] :=
  ⟨by decide,
   hidden_file_is_not_found demoDeps demoOpen demoRoot (mkReq "/secret/.env" "" "") 1
    (by decide) (by decide) (by decide) (by decide)⟩

/-- C2 fails as stated: for the empty URL path the cleaned path is `.`, whose final
segment begins with `.`, yet `fileSystem.Open` opens the root directory and
`ServeHTTP` answers 301 with `Location: /`, not 404. -/
theorem empty_path_opens_the_root :
    path.Clean (mkReq "" "" "").Path = ['.'] ∧
    strings.HasPrefix (filepath.Base (path.Clean (mkReq "" "" "").Path)) ['.'] = true ∧
    fileSystem.Open demoOpen demoRoot (path.Clean (mkReq "" "" "").Path)
      = ([.osOpen "/srv/www".toList], .ok (directory "/srv/www".toList)) ∧
    fileServer.ServeHTTP demoDeps demoOpen demoRoot 2 (mkReq "" "" "")
      = some [.osOpen "/srv/www".toList,
          .headerAdd .raw "Location".toList "/".toList,
          .writeHeader .raw 301, .fileClose (directory "/srv/www".toList)] := by
  decide

/-- C1 fails on the code: with root `/srv/www` the URL path `../../etc/passwd` is left
as it is by `path.Clean`, the name handed to `os.Open` is `/etc/passwd`, which is not
under the root, and that file is served.  The same path with a leading `/` stays
under the root. -/
theorem relative_path_escapes_the_root :
    path.Clean "../../etc/passwd".toList = "../../etc/passwd".toList ∧
    fileSystem.fullName demoRoot (path.Clean "../../etc/passwd".toList) = "/etc/passwd".toList ∧
    strings.HasPrefix (fileSystem.fullName demoRoot (path.Clean "../../etc/passwd".toList))
      demoRoot = false ∧
    fileServer.ServeHTTP demoDeps demoOpen demoRoot 2 (mkReq "../../etc/passwd" "" "")
      = some [.osOpen "/etc/passwd".toList,
          .negotiate (mkReq "../../etc/passwd" "" "") demoDeps.contentEncodings,
          .headerAdd .raw "Content-Encoding".toList "identity".toList,
          .serveContent .raw (mkReq "../../etc/passwd" "" "") "passwd".toList 0
            (regularFile "/etc/passwd".toList),
          .fileClose (regularFile "/etc/passwd".toList)] ∧
    fileSystem.fullName demoRoot (path.Clean "/../../etc/passwd".toList)
      = "/srv/www/etc/passwd".toList := by
  decide

/-- C5 fails on the code: the request path `//evil.com/..` cleans to `/`, which opens as
the root directory; the raw path does not end with `/`, so the answer is 301 with
`Location: //evil.com/../`, a reference that begins with `//` and so names the
authority `evil.com`. -/
theorem redirect_location_names_an_authority :
    path.Clean "//evil.com/..".toList = "/".toList ∧
    fileServer.ServeHTTP demoDeps demoOpen demoRoot 2 (mkReq "//evil.com/.." "" "")
      = some [.osOpen "/srv/www".toList,
          .headerAdd .raw "Location".toList "//evil.com/../".toList,
          .writeHeader .raw 301, .fileClose (directory "/srv/www".toList)] ∧
    strings.HasPrefix "//evil.com/../".toList "//".toList = true := by
  decide
